import Mathlib

/-!
Verification of the waits-for-graph deadlock detector of
`buildscripts/gdb/mongo_lock.py`: the `Thread`/`Lock` node classes, the
`Graph` engine (node/edge insertion, pruning, DFS cycle detection) and the
pure decision core of the snapshot-builder commands.

The Python code is shallowly embedded: the graph's `dict` (which preserves
insertion order and has unique keys) becomes an association list, Python
sets of strings become lists queried only by membership, and the recursive
`depth_first_search` is given a fuel parameter large enough that the fuel
never runs out on any call the program performs (proved below).  The
GDB-specific introspection (frame walking, symbol lookup) is out of scope
and appears only as the already-extracted values it produces.
-/

namespace MongoLock

/-- One lowercase hexadecimal digit, as produced by Python's `"{:x}".format`. -/
def hexDigitChar (n : Nat) : Char :=
  if n < 10 then Char.ofNat (48 + n) else Char.ofNat (87 + n)

/-- Hexadecimal digits of `n`, most significant first (empty for 0).
`fuel` bounds the recursion depth; `fuel = n` is always enough. -/
def hexChars : Nat → Nat → List Char
  | 0, _ => []
  | fuel + 1, n =>
    if n = 0 then [] else hexChars fuel (n / 16) ++ [hexDigitChar (n % 16)]

/-- Python's `"{:012x}".format(n)`: lowercase hex, zero-padded to width 12. -/
def hexPad12 (n : Nat) : String :=
  let s := hexChars n n
  String.mk (List.replicate (12 - s.length) '0' ++ s)

/-- `Thread` class: thread identity, kernel LWP id, display name. -/
structure Thread where
  thread_id : Nat
  lwpid : Nat
  name : String
deriving DecidableEq

/-- `Thread.key`: `"Thread 0x{:012x}".format(self.thread_id)`. -/
def Thread.key (t : Thread) : String :=
  "Thread 0x" ++ hexPad12 t.thread_id

/-- `Thread.__str__`: `"{} (Thread 0x{:012x} (LWP {}))"`. -/
def Thread.toStr (t : Thread) : String :=
  t.name ++ " (Thread 0x" ++ hexPad12 t.thread_id ++ " (LWP " ++ Nat.repr t.lwpid ++ "))"

/-- `Lock` class: resource address and kind. -/
structure Lock where
  addr : Nat
  resource : String
deriving DecidableEq

/-- `Lock.key`: `"Lock 0x{:012x}".format(self.addr)`. -/
def Lock.key (l : Lock) : String :=
  "Lock 0x" ++ hexPad12 l.addr

/-- `Lock.__str__`: `"Lock 0x{:012x} ({})"`. -/
def Lock.toStr (l : Lock) : String :=
  "Lock 0x" ++ hexPad12 l.addr ++ " (" ++ l.resource ++ ")"

/-- A graph node is either a `Thread` or a `Lock` object. -/
inductive GNode
  | thread (t : Thread)
  | lock (l : Lock)
deriving DecidableEq

/-- Dispatch of `.key()` over the two node classes. -/
def GNode.key : GNode → String
  | .thread t => t.key
  | .lock l => l.key

/-- Dispatch of `str(...)` over the two node classes. -/
def GNode.toStr : GNode → String
  | .thread t => t.toStr
  | .lock l => l.toStr

/-- The value stored under one graph key:
`{'node': node, 'next_nodes': [...]}`. -/
structure NodeEntry where
  node : GNode
  next_nodes : List String
deriving DecidableEq

/-- The `Graph` class.  `self.nodes` is a Python dict from node key to entry;
dicts preserve insertion order and have unique keys, so it is embedded as an
association list in insertion order. -/
structure Graph where
  nodes : List (String × NodeEntry)
deriving DecidableEq

/-- `Graph.__init__`: the empty graph. -/
def Graph.empty : Graph := ⟨[]⟩

/-- `Graph.is_empty`: `not bool(self.nodes)`. -/
def Graph.is_empty (g : Graph) : Bool := g.nodes.isEmpty

/-- Dict lookup `self.nodes[key]` (first entry with this key). -/
def Graph.findEntry (g : Graph) (key : String) : Option NodeEntry :=
  (g.nodes.find? (fun p => p.1 == key)).map (fun p => p.2)

/-- `Graph.find_node`: entry under `node.key()` if present, else `None`. -/
def Graph.find_node (g : Graph) (n : GNode) : Option NodeEntry :=
  g.findEntry n.key

/-- `Graph.add_node`: register `node` under its key if absent (no-op if
present); a fresh entry has an empty `next_nodes` list. -/
def Graph.add_node (g : Graph) (n : GNode) : Graph :=
  if (g.find_node n).isSome then g
  else ⟨g.nodes ++ [(n.key, ⟨n, []⟩)]⟩

/-- `self.nodes[key]['next_nodes']`.  The `[]` default is only taken for a
key absent from the dict, where Python would raise `KeyError`; every use
below is on keys present in the graph (all graphs built by the API are
closed, see `WFGraph`). -/
def Graph.nextOf (g : Graph) (key : String) : List String :=
  ((g.findEntry key).map (fun e => e.next_nodes)).getD []

/-- `Graph.find_from_node`: first node (in iteration order) whose
`next_nodes` contains `from_node['node'].key()`. -/
def Graph.find_from_node (g : Graph) (e : NodeEntry) : Option (String × NodeEntry) :=
  g.nodes.find? (fun p => e.node.key ∈ p.2.next_nodes)

/-- `Graph.remove_nodes_without_edge`: rebuild `self.nodes`, keeping exactly
the nodes with an outgoing or an incoming edge; the test reads the original
mapping (`temp_nodes` is built aside and swapped in at the end). -/
def Graph.remove_nodes_without_edge (g : Graph) : Graph :=
  ⟨g.nodes.filter (fun p => !p.2.next_nodes.isEmpty || (g.find_from_node p.2).isSome)⟩

/-- Replace the `next_nodes` list of the (first) entry stored under `key`
(`self.nodes[key]['next_nodes'] = ...` after a mutating append). -/
def replaceNext : List (String × NodeEntry) → String → List String → List (String × NodeEntry)
  | [], _, _ => []
  | (k, e) :: rest, key, nn =>
    if k == key then (k, ⟨e.node, nn⟩) :: rest
    else (k, e) :: replaceNext rest key nn

/-- `Graph.add_edge`: register both endpoints (lazily via `add_node`), then
append `to_node.key()` to the source's `next_nodes` unless already present. -/
def Graph.add_edge (g : Graph) (from_node to_node : GNode) : Graph :=
  let g2 := (g.add_node from_node).add_node to_node
  let fnext := g2.nextOf from_node.key
  if to_node.key ∈ fnext then g2
  else ⟨replaceNext g2.nodes from_node.key (fnext ++ [to_node.key])⟩

/-- Python set `nodes_visited.add`: membership-only set of strings, embedded
as a duplicate-free list extended at the tail. -/
def insertKey (k : String) (v : List String) : List String :=
  if k ∈ v then v else v ++ [k]

/-- `nodes_in_cycle[nodes_in_cycle.index(node):]`: the suffix of the DFS
path from the first occurrence of `node` (which is a member). -/
def cycleSuffix (path : List String) (n : String) : List String :=
  path.dropWhile (fun x => x != n)

/-- The neighbor loop of `Graph.depth_first_search`, abstracted over the
recursive call `rec` (which carries the fuel): for each pending neighbor,
return the cycle suffix if it is on the current path, skip it if already
visited, otherwise recurse, propagating a found cycle and the grown
visited set. -/
def dfsLoopF (rec : String → List String → List String → Option (List String) × List String) :
    List String → List String → List String → Option (List String) × List String
  | [], visited, _ => (none, visited)
  | n :: rest, visited, path =>
    if n ∈ path then (some (cycleSuffix path n), visited)
    else if n ∈ visited then dfsLoopF rec rest visited path
    else
      match rec n visited path with
      | (some c, v') => (some c, v')
      | (none, v') => dfsLoopF rec rest v' path

/-- `Graph.depth_first_search`: mark the key visited, push it on the path,
and run the neighbor loop; popping the key off the path on a `None` return
is implicit because the caller keeps its own `path` value.  The fuel only
bounds the recursion depth: `detect_cycle` supplies enough fuel that the
`0` case (which Python does not have) is never reached. -/
def dfsF (g : Graph) : Nat → String → List String → List String →
    Option (List String) × List String
  | 0, _, visited, _ => (none, visited)
  | fuel + 1, key, visited, path =>
    dfsLoopF (fun n v p => dfsF g fuel n v p) (g.nextOf key) (insertKey key visited) (path ++ [key])

/-- The loop of `Graph.detect_cycle` over all node keys, sharing the
visited set and giving each root a fresh empty path. -/
def detectLoopF (g : Graph) (fuel : Nat) : List String → List String → Option (List String)
  | [], _ => none
  | k :: rest, visited =>
    if k ∈ visited then detectLoopF g fuel rest visited
    else
      match dfsF g fuel k visited [] with
      | (some c, _) => some c
      | (none, v') => detectLoopF g fuel rest v'

/-- Every key that can ever enter the visited set: the registered keys and
every key mentioned in a `next_nodes` list, without duplicates. -/
def allKeysList (g : Graph) : List String :=
  (g.nodes.map Prod.fst ++ g.nodes.flatMap (fun p => p.2.next_nodes)).dedup

/-- Fuel that `detect_cycle` hands to the DFS; sufficient because each
nested recursive call visits a fresh member of `allKeysList`. -/
def fuelOf (g : Graph) : Nat := (allKeysList g).length

/-- `str(self.nodes[node_key]['node'])`; the `""` default is only taken for
a key absent from the dict, where Python would raise `KeyError` (never
reached for the keys `detect_cycle` returns on closed graphs). -/
def Graph.descOf (g : Graph) (key : String) : String :=
  ((g.findEntry key).map (fun e => e.node.toStr)).getD ""

/-- `Graph.detect_cycle`: run the DFS from every not-yet-visited node; on
the first cycle found, render its node keys via `str`. -/
def Graph.detect_cycle (g : Graph) : Option (List String) :=
  (detectLoopF g (fuelOf g) (g.nodes.map Prod.fst) []).map
    (fun l => l.map (fun k => g.descOf k))

/-- Number of edges of the graph: total length of the `next_nodes` lists. -/
def Graph.edge_count (g : Graph) : Nat :=
  (g.nodes.map (fun p => p.2.next_nodes.length)).sum

/-- The edge relation of the graph: `b` is listed among `a`'s successors. -/
def EdgeB (g : Graph) (a b : String) : Prop := b ∈ g.nextOf a

instance (g : Graph) (a b : String) : Decidable (EdgeB g a b) :=
  inferInstanceAs (Decidable (b ∈ g.nextOf a))

/-- The graph contains a directed cycle: some key chains back to itself
through existing edges. -/
def HasCycle (g : Graph) : Prop :=
  ∃ k rest, List.Chain (EdgeB g) k (rest ++ [k])

/-- Python-dict invariant: the stored keys are pairwise distinct. -/
def KeysNodup (g : Graph) : Prop := (g.nodes.map Prod.fst).Nodup

instance (g : Graph) : Decidable (KeysNodup g) :=
  inferInstanceAs (Decidable (g.nodes.map Prod.fst).Nodup)

/-- Each entry is stored under its own node's key. -/
def KeyMatch (g : Graph) : Prop := ∀ p ∈ g.nodes, p.2.node.key = p.1

instance (g : Graph) : Decidable (KeyMatch g) :=
  inferInstanceAs (Decidable (∀ p ∈ g.nodes, p.2.node.key = p.1))

/-- Every key referenced in an outgoing list is registered in the graph. -/
def ClosedNext (g : Graph) : Prop :=
  ∀ p ∈ g.nodes, ∀ x ∈ p.2.next_nodes, x ∈ g.nodes.map Prod.fst

instance (g : Graph) : Decidable (ClosedNext g) :=
  inferInstanceAs (Decidable (∀ p ∈ g.nodes, ∀ x ∈ p.2.next_nodes, x ∈ g.nodes.map Prod.fst))

/-- No duplicate entries within one node's outgoing list. -/
def NodupNext (g : Graph) : Prop := ∀ p ∈ g.nodes, p.2.next_nodes.Nodup

instance (g : Graph) : Decidable (NodupNext g) :=
  inferInstanceAs (Decidable (∀ p ∈ g.nodes, p.2.next_nodes.Nodup))

/-- The structural invariant maintained by the `Graph` API (the first two
conjuncts are automatic for Python dicts, the last two are the spec's
`outgoing`-list invariants). -/
def WFGraph (g : Graph) : Prop :=
  KeysNodup g ∧ KeyMatch g ∧ ClosedNext g ∧ NodupNext g

instance (g : Graph) : Decidable (WFGraph g) :=
  inferInstanceAs (Decidable (KeysNodup g ∧ KeyMatch g ∧ ClosedNext g ∧ NodupNext g))

/-- `find_thread`: scan the thread dict's values for one with the given
`thread_id`; `None` when the thread is not in the snapshot. -/
def find_thread (thread_dict : List (Nat × Thread)) (search_thread_id : Nat) : Option Thread :=
  (thread_dict.find? (fun p => p.2.thread_id == search_thread_id)).map (fun p => p.2)

/-- Python dict lookup `thread_dict[lwpid]` (the dict is keyed by LWP id). -/
def lookupLwp (thread_dict : List (Nat × Thread)) (lwpid : Nat) : Option Thread :=
  (thread_dict.find? (fun p => p.1 == lwpid)).map (fun p => p.2)

/-- Decision core of `find_mutex_holder`, taking the values the GDB
introspection produced: the mutex address (`long(mutex_value)`), the owner
LWP id read from `__data.__owner`, and the waiter's LWP id.  When the owner
is not in `thread_dict`, a placeholder `Thread(lwpid, lwpid, '"[unknown]"')`
is synthesized (the warning print is side-effect only).  Returns `none`
exactly when Python would raise `KeyError` looking up the waiter. -/
def find_mutex_holder (g : Graph) (thread_dict : List (Nat × Thread))
    (mutexAddr mutex_holder_lwpid mutex_waiter_lwpid : Nat) : Option Graph :=
  let mutex_holder : Thread :=
    match lookupLwp thread_dict mutex_holder_lwpid with
    | none => ⟨mutex_holder_lwpid, mutex_holder_lwpid, "\x22[unknown]\x22"⟩
    | some t => t
  match lookupLwp thread_dict mutex_waiter_lwpid with
  | none => none
  | some mutex_waiter =>
    some ((g.add_edge (.thread mutex_waiter) (.lock ⟨mutexAddr, "Mutex"⟩)).add_edge
      (.lock ⟨mutexAddr, "Mutex"⟩) (.thread mutex_holder))

/-- The granted-list loop of `find_lock_manager_holders`: for each granted
lock request's locker thread id, add the waiter and holder edges.  When
`find_thread` yields `None`, Python passes `None` into
`graph.add_edge(Lock(...), lock_holder)`, where `None.key()` raises
`AttributeError` and aborts the pass: modelled as `none` (the partially
mutated graph is lost to the pass either way). -/
def lockManagerGrantedLoop (g : Graph) (thread_dict : List (Nat × Thread))
    (lock_waiter : Thread) (lockAddr : Nat) : List Nat → Option Graph
  | [] => some g
  | hid :: rest =>
    match find_thread thread_dict hid with
    | none => none
    | some lock_holder =>
      lockManagerGrantedLoop
        ((g.add_edge (.thread lock_waiter) (.lock ⟨lockAddr, "MongoDB lock"⟩)).add_edge
          (.lock ⟨lockAddr, "MongoDB lock"⟩) (.thread lock_holder))
        thread_dict lock_waiter lockAddr rest

/-- Decision core of `find_lock_manager_holders`, over the GDB-extracted
inputs: the lock head address (`long(lock_head)`), the waiter's LWP id and
the locker thread ids of the granted list.  Returns `none` when Python
would raise (waiter `KeyError`, or `AttributeError` on a `None` holder). -/
def find_lock_manager_holders (g : Graph) (thread_dict : List (Nat × Thread))
    (lockAddr lock_waiter_lwpid : Nat) (granted_thread_ids : List Nat) : Option Graph :=
  match lookupLwp thread_dict lock_waiter_lwpid with
  | none => none
  | some lock_waiter =>
    lockManagerGrantedLoop g thread_dict lock_waiter lockAddr granted_thread_ids

/-- `"%s" % cycle_nodes`: CPython `repr` of a list of strings (modelled for
strings without quote or escape characters, which is all the renderer
produces here). -/
def pyReprStrList (l : List String) : String :=
  "[" ++ String.intercalate ", " (l.map (fun s => "\x27" ++ s ++ "\x27")) ++ "]"

/-- `Graph.to_graph`: the dot-format rendering (legend, optional message,
edge statements, label statements, closing brace). -/
def Graph.to_graph (g : Graph) (nodes : Option (List String)) (message : Option String) : String :=
  let sb : List String :=
    ["# Legend:",
     "#    Thread 1 -> Lock 1 indicates Thread 1 is waiting on Lock 1",
     "#    Lock 2 -> Thread 2 indicates Lock 2 is held by Thread 2"]
  let sb := sb ++ (match message with | none => [] | some m => [m])
  let sb := sb ++ ["digraph \x22mongod+lock-status\x22 \x7b"]
  let sb := sb ++ g.nodes.flatMap (fun p => p.2.next_nodes.map (fun nk =>
    "    \x22" ++ p.1 ++ "\x22 -> \x22" ++ nk ++ "\x22;"))
  let sb := sb ++ g.nodes.map (fun p =>
    let color := match nodes with
      | some ns => if !ns.isEmpty && p.1 ∈ ns then "color = red" else ""
      | none => ""
    "    \x22" ++ p.1 ++ "\x22 [label=\x22" ++ p.2.node.toStr ++ "\x22 " ++ color ++ "]")
  let sb := sb ++ ["\x7d"]
  String.intercalate "\n" sb

/-- Decision core of `MongoDBWaitsForGraph.mongodb_waitsfor_graph` after
`get_locks` has produced the graph: prune, then either report the explicit
empty-graph outcome (`none`, printed as "Not generating the digraph, since
the lock graph is empty") or produce the rendered digraph text with the
cycle verdict message. -/
def mongodb_waitsfor_graph (g : Graph) : Option String :=
  let g := g.remove_nodes_without_edge
  if g.is_empty then none
  else
    let cycle_nodes := g.detect_cycle
    let cycle_message :=
      match cycle_nodes with
      | none => "# No cycle detected in the graph"
      | some l => "# Cycle detected in the graph nodes " ++ pyReprStrList l
    some (g.to_graph cycle_nodes (some cycle_message))

/-! ### Specification predicates for the DFS -/

/-- A key-level cycle found by the detector: a nonempty key sequence whose
consecutive elements, and the wrap-around from last to first, are existing
edges, with no key repeated. -/
def GoodCyc (g : Graph) (c : List String) : Prop :=
  ∃ k rest, c = k :: rest ∧ (k :: rest).Nodup ∧ List.Chain (EdgeB g) k (rest ++ [k])

/-- Number of keys of the graph not yet visited (the DFS fuel measure). -/
def remaining (g : Graph) (v : List String) : Nat :=
  ((allKeysList g).filter (fun x => decide (x ∉ v))).length

/-- Invariant of the visited set relative to the current DFS path: every
visited key off the path is fully explored (all its successors are
visited). -/
def GI (g : Graph) (v p : List String) : Prop :=
  ∀ a ∈ v, a ∉ p → ∀ b, EdgeB g a b → b ∈ v

/-! ### Concrete instances used by the scenario claims and witnesses -/

/-- Scenario A: thread T1. -/
def aT1 : GNode := .thread ⟨1, 101, "conn1"⟩

/-- Scenario A: lock L1. -/
def aL1 : GNode := .lock ⟨161, "MongoDB lock"⟩

/-- Scenario A: thread T2. -/
def aT2 : GNode := .thread ⟨2, 102, "conn2"⟩

/-- Scenario A: lock L2. -/
def aL2 : GNode := .lock ⟨162, "MongoDB lock"⟩

/-- Scenario A graph: L1 held by T2 and waited on by T1, L2 held by T1 and
waited on by T2, inserted in wait order. -/
def gScenA : Graph :=
  (((Graph.empty.add_edge aT1 aL1).add_edge aL1 aT2).add_edge aT2 aL2).add_edge aL2 aT1

/-- A node given a self-loop. -/
def selfN : GNode := .thread ⟨5, 7, "w"⟩

/-- Graph with a single registered node carrying a self-loop. -/
def gSelf : Graph := (Graph.empty.add_node selfN).add_edge selfN selfN

/-- A thread whose display name renders exactly like a lock description's
prefix. -/
def badT : GNode := .thread ⟨0, 0, "Lock 0x000000000000"⟩

/-- A lock whose resource string renders exactly like a thread description's
suffix, so that `str(badL) = str(badT)` while the keys differ. -/
def badL : GNode := .lock ⟨0, "Thread 0x000000000000 (LWP 0)"⟩

/-- Two-node cycle whose two distinct nodes share one description. -/
def gBadDesc : Graph := (Graph.empty.add_edge badT badL).add_edge badL badT

/-- Acyclic two-node graph with one edge. -/
def gAcyc : Graph := Graph.empty.add_edge aT1 aL1

/-- Graph with a single isolated node. -/
def gIso : Graph := Graph.empty.add_node aT1

/-- One contended edge plus an isolated node. -/
def gPruneW : Graph := (Graph.empty.add_edge aT1 aL1).add_node aT2

/-- Thread dict of a snapshot that found one thread: LWP 10, id 100. -/
def dictW : List (Nat × Thread) := [(10, ⟨100, 10, "conn7"⟩)]

/-- Graph produced by the mutex pass when the owner LWP (99) is missing
from the snapshot. -/
def gMutexUnknown : Graph := (find_mutex_holder Graph.empty dictW 3 99 10).getD Graph.empty

/-- Two `Thread` objects sharing a `thread_id` (distinct LWP and name). -/
def wT1 : Thread := ⟨1, 101, "conn1"⟩

/-- Second observation of the thread with id 1. -/
def wT2 : Thread := ⟨1, 999, "other"⟩

/-- Two `Lock` objects sharing an address (distinct resource label). -/
def wL1 : Lock := ⟨161, "MongoDB lock"⟩

/-- Second observation of the lock at address 161. -/
def wL2 : Lock := ⟨161, "dup"⟩

/-! ### Basic lemmas about the graph operations -/

theorem findEntry_isSome_iff (g : Graph) (k : String) :
    (g.findEntry k).isSome = true ↔ k ∈ g.nodes.map Prod.fst := by
  unfold Graph.findEntry
  rcases hf : g.nodes.find? (fun p => p.1 == k) with _ | p
  · rw [hf]
    simp only [Option.map_none', Option.isSome_none, Bool.false_eq_true, false_iff]
    rw [List.find?_eq_none] at hf
    intro hmem
    obtain ⟨p, hp, rfl⟩ := List.mem_map.mp hmem
    exact hf p hp (by simp)
  · rw [hf]
    simp only [Option.map_some', Option.isSome_some, true_iff]
    have h1 := List.find?_some hf
    have h2 := List.mem_of_find?_eq_some hf
    have h3 : p.1 = k := by simpa using h1
    subst h3
    exact List.mem_map.mpr ⟨p, h2, rfl⟩

theorem add_node_of_present (g : Graph) (n : GNode)
    (h : (g.findEntry n.key).isSome = true) : g.add_node n = g := by
  unfold Graph.add_node Graph.find_node
  simp [h]

theorem findEntry_add_node_self (g : Graph) (n : GNode) :
    ((g.add_node n).findEntry n.key).isSome = true := by
  unfold Graph.add_node Graph.find_node
  by_cases h : (g.findEntry n.key).isSome
  · simpa [h]
  · simp only [h, if_false, Bool.false_eq_true]
    unfold Graph.findEntry at h ⊢
    rcases hf : g.nodes.find? (fun p => p.1 == n.key) with _ | p
    · simp [List.find?_append, hf]
    · simp [hf] at h

theorem findEntry_add_node_of_isSome (g : Graph) (n : GNode) (k : String)
    (h : (g.findEntry k).isSome = true) : (g.add_node n).findEntry k = g.findEntry k := by
  unfold Graph.add_node Graph.find_node
  by_cases hp : (g.findEntry n.key).isSome
  · simp [hp]
  · simp only [hp, if_false, Bool.false_eq_true]
    unfold Graph.findEntry at h ⊢
    rcases hf : g.nodes.find? (fun p => p.1 == k) with _ | p
    · simp [hf] at h
    · simp [List.find?_append, hf]

theorem nextOf_add_node (g : Graph) (n : GNode) (k : String) :
    (g.add_node n).nextOf k = g.nextOf k := by
  unfold Graph.add_node Graph.find_node
  by_cases hp : (g.findEntry n.key).isSome
  · simp [hp]
  · simp only [hp, if_false, Bool.false_eq_true]
    unfold Graph.nextOf Graph.findEntry
    rcases hf : g.nodes.find? (fun p => p.1 == k) with _ | p
    · by_cases hnk : (n.key == k)
      · simp [List.find?_append, hf, List.find?, hnk]
      · simp [List.find?_append, hf, List.find?, hnk]
    · simp [List.find?_append, hf]

theorem keys_add_node_mem (g : Graph) (n : GNode) (k : String)
    (h : k ∈ g.nodes.map Prod.fst) : k ∈ (g.add_node n).nodes.map Prod.fst := by
  unfold Graph.add_node Graph.find_node
  by_cases hp : (g.findEntry n.key).isSome
  · simp only [hp, if_true]
    exact h
  · simp only [hp, if_false, Bool.false_eq_true]
    simp only [List.map_append, List.mem_append]
    exact Or.inl h

theorem replaceNext_map_fst (l : List (String × NodeEntry)) (key : String) (nn : List String) :
    (replaceNext l key nn).map Prod.fst = l.map Prod.fst := by
  induction l with
  | nil => rfl
  | cons p rest ih =>
    obtain ⟨k, e⟩ := p
    unfold replaceNext
    by_cases h : k == key
    · simp [h]
    · simp [h, ih]

theorem replaceNext_length (l : List (String × NodeEntry)) (key : String) (nn : List String) :
    (replaceNext l key nn).length = l.length := by
  have := congrArg List.length (replaceNext_map_fst l key nn)
  simpa using this

theorem replaceNext_find?_self (l : List (String × NodeEntry)) (key : String) (nn : List String) :
    (replaceNext l key nn).find? (fun p => p.1 == key)
      = (l.find? (fun p => p.1 == key)).map (fun p => (p.1, ⟨p.2.node, nn⟩)) := by
  induction l with
  | nil => rfl
  | cons p rest ih =>
    obtain ⟨k, e⟩ := p
    unfold replaceNext
    by_cases h : k == key
    · simp [List.find?, h]
    · simp only [h, if_false, Bool.false_eq_true]
      simp [List.find?, h, ih]

theorem replaceNext_find?_other (l : List (String × NodeEntry)) (key k : String)
    (nn : List String) (hk : k ≠ key) :
    (replaceNext l key nn).find? (fun p => p.1 == k) = l.find? (fun p => p.1 == k) := by
  induction l with
  | nil => rfl
  | cons p rest ih =>
    obtain ⟨kk, e⟩ := p
    unfold replaceNext
    by_cases h : kk == key
    · have hkk : kk = key := by simpa using h
      subst hkk
      have : (kk == k) = false := by
        simp only [beq_eq_false_iff_ne, ne_eq]
        exact fun hh => hk hh.symm
      simp [List.find?, this, h]
    · by_cases h2 : kk == k
      · simp [List.find?, h, h2]
      · simp [List.find?, h, h2, ih]

theorem mem_replaceNext (l : List (String × NodeEntry)) (key : String) (nn : List String)
    (q : String × NodeEntry) (hq : q ∈ replaceNext l key nn) :
    q ∈ l ∨ ∃ e : NodeEntry, (key, e) ∈ l ∧ q = (key, ⟨e.node, nn⟩) := by
  induction l with
  | nil => simpa [replaceNext] using hq
  | cons p rest ih =>
    obtain ⟨k, e⟩ := p
    unfold replaceNext at hq
    by_cases h : k == key
    · have hk : k = key := by simpa using h
      subst hk
      simp only [h, if_true] at hq
      rcases List.mem_cons.mp hq with h1 | h1
      · exact Or.inr ⟨e, List.mem_cons_self _ _, h1⟩
      · exact Or.inl (List.mem_cons_of_mem _ h1)
    · simp only [h, Bool.false_eq_true, if_false] at hq
      rcases List.mem_cons.mp hq with h1 | h1
      · exact Or.inl (List.mem_cons.mpr (Or.inl h1))
      · rcases ih h1 with h2 | ⟨e', he', rfl⟩
        · exact Or.inl (List.mem_cons_of_mem _ h2)
        · exact Or.inr ⟨e', List.mem_cons_of_mem _ he', rfl⟩

theorem findEntry_replace_self (g : Graph) (key : String) (nn : List String) :
    (Graph.mk (replaceNext g.nodes key nn)).findEntry key
      = (g.findEntry key).map (fun e => ⟨e.node, nn⟩) := by
  unfold Graph.findEntry
  rw [replaceNext_find?_self]
  rcases hf : g.nodes.find? (fun p => p.1 == key) with _ | p <;> simp [hf]

theorem findEntry_replace_other (g : Graph) (key k : String) (nn : List String) (hk : k ≠ key) :
    (Graph.mk (replaceNext g.nodes key nn)).findEntry k = g.findEntry k := by
  unfold Graph.findEntry
  rw [replaceNext_find?_other _ _ _ _ hk]

theorem nextOf_replace_self (g : Graph) (key : String) (nn : List String)
    (h : (g.findEntry key).isSome = true) :
    (Graph.mk (replaceNext g.nodes key nn)).nextOf key = nn := by
  obtain ⟨e, he⟩ := Option.isSome_iff_exists.mp h
  unfold Graph.nextOf
  rw [findEntry_replace_self, he]
  rfl

theorem findEntry_g2_left (g : Graph) (a b : GNode) :
    (((g.add_node a).add_node b).findEntry a.key).isSome = true := by
  have h1 := findEntry_add_node_self g a
  rw [findEntry_isSome_iff] at h1 ⊢
  exact keys_add_node_mem _ b _ h1

theorem findEntry_g2_right (g : Graph) (a b : GNode) :
    (((g.add_node a).add_node b).findEntry b.key).isSome = true :=
  findEntry_add_node_self (g.add_node a) b

theorem nextOf_g2 (g : Graph) (a b : GNode) (k : String) :
    ((g.add_node a).add_node b).nextOf k = g.nextOf k := by
  rw [nextOf_add_node, nextOf_add_node]

theorem nextOf_add_edge_self (g : Graph) (a b : GNode) :
    (g.add_edge a b).nextOf a.key =
      (if b.key ∈ g.nextOf a.key then g.nextOf a.key else g.nextOf a.key ++ [b.key]) := by
  by_cases hmem : b.key ∈ g.nextOf a.key
  · simp only [Graph.add_edge, nextOf_g2, hmem, if_true]
  · simp only [Graph.add_edge, nextOf_g2, hmem, if_false]
    exact nextOf_replace_self _ _ _ (findEntry_g2_left g a b)

theorem mem_nextOf_add_edge (g : Graph) (a b : GNode) :
    b.key ∈ (g.add_edge a b).nextOf a.key := by
  rw [nextOf_add_edge_self]
  by_cases hmem : b.key ∈ g.nextOf a.key
  · simpa [hmem]
  · simp [hmem]

theorem keys_add_edge (g : Graph) (a b : GNode) :
    (g.add_edge a b).nodes.map Prod.fst = ((g.add_node a).add_node b).nodes.map Prod.fst := by
  simp only [Graph.add_edge, nextOf_g2]
  by_cases hmem : b.key ∈ g.nextOf a.key
  · simp [hmem]
  · simp [hmem, replaceNext_map_fst]

theorem add_edges_nodes_length (g : Graph) (a b : GNode) :
    (g.add_edge a b).nodes.length = ((g.add_node a).add_node b).nodes.length := by
  have h1 := congrArg List.length (keys_add_edge g a b)
  simpa using h1

theorem findEntry_add_edge_left_isSome (g : Graph) (a b : GNode) :
    ((g.add_edge a b).findEntry a.key).isSome = true := by
  rw [findEntry_isSome_iff, keys_add_edge, ← findEntry_isSome_iff]
  exact findEntry_g2_left g a b

theorem findEntry_add_edge_right_isSome (g : Graph) (a b : GNode) :
    ((g.add_edge a b).findEntry b.key).isSome = true := by
  rw [findEntry_isSome_iff, keys_add_edge, ← findEntry_isSome_iff]
  exact findEntry_g2_right g a b

theorem add_edge_noop (g : Graph) (a b : GNode)
    (h1 : (g.findEntry a.key).isSome = true) (h2 : (g.findEntry b.key).isSome = true)
    (h3 : b.key ∈ g.nextOf a.key) : g.add_edge a b = g := by
  have e1 : g.add_node a = g := add_node_of_present _ _ h1
  have e2 : g.add_node b = g := add_node_of_present _ _ h2
  simp only [Graph.add_edge, e1, e2, h3, if_true]

theorem add_edge_idem (g : Graph) (a b : GNode) :
    (g.add_edge a b).add_edge a b = g.add_edge a b :=
  add_edge_noop _ _ _ (findEntry_add_edge_left_isSome g a b)
    (findEntry_add_edge_right_isSome g a b) (mem_nextOf_add_edge g a b)

/-! ### Claim theorems: edge insertion, node identity, scenarios, builder -/

/-- C5: `add_edge` is idempotent: for every graph, node pair and `N ≥ 1`,
calling `add_edge(from, to)` N times leaves the graph exactly as one call
does; the source's outgoing list is the old list, unchanged when `to`'s key
was already present and extended by exactly that one key otherwise, so its
length grows by at most 1 regardless of N and no duplicate of `to`'s key is
appended. -/
theorem claim_add_edge_idempotent (g : Graph) (a b : GNode) (n : Nat) (hn : 1 ≤ n) :
    (fun h => Graph.add_edge h a b)^[n] g = g.add_edge a b ∧
    (g.add_edge a b).add_edge a b = g.add_edge a b ∧
    (g.add_edge a b).nextOf a.key =
      (if b.key ∈ g.nextOf a.key then g.nextOf a.key else g.nextOf a.key ++ [b.key]) ∧
    ((g.add_edge a b).nextOf a.key).length ≤ (g.nextOf a.key).length + 1 := by
  refine ⟨?_, add_edge_idem g a b, nextOf_add_edge_self g a b, ?_⟩
  · obtain ⟨m, rfl⟩ : ∃ m, n = m + 1 := ⟨n - 1, (Nat.succ_pred_eq_of_pos hn).symm⟩
    induction m with
    | zero => simp
    | succ m ih =>
      rw [Function.iterate_succ_apply', ih (Nat.le_add_left 1 m), add_edge_idem]
  · rw [nextOf_add_edge_self]
    by_cases hmem : b.key ∈ g.nextOf a.key
    · simp [hmem]
    · simp [hmem]

/-- Witness for C5 at a concrete graph, node pair and `N = 2`. -/
theorem claim_add_edge_idempotent_witness :
    1 ≤ 2 ∧
    ((fun h => Graph.add_edge h aT1 aL1)^[2] Graph.empty = Graph.empty.add_edge aT1 aL1 ∧
     (Graph.empty.add_edge aT1 aL1).add_edge aT1 aL1 = Graph.empty.add_edge aT1 aL1 ∧
     (Graph.empty.add_edge aT1 aL1).nextOf aT1.key =
       (if aL1.key ∈ Graph.empty.nextOf aT1.key then Graph.empty.nextOf aT1.key
        else Graph.empty.nextOf aT1.key ++ [aL1.key]) ∧
     ((Graph.empty.add_edge aT1 aL1).nextOf aT1.key).length
       ≤ (Graph.empty.nextOf aT1.key).length + 1) :=
  ⟨by decide, claim_add_edge_idempotent Graph.empty aT1 aL1 2 (by decide)⟩

/-- C9: node identity is key equality, not object identity: two `Thread`
objects with one `thread_id` (or two `Lock` objects with one address) have
equal keys, the second `add_node` is a no-op keeping the first-registered
entry, the node count does not grow, `find_node` resolves both to the same
entry, and `add_edge` calls referencing the second object add no node. -/
theorem claim_node_identity_by_key (t1 t2 : Thread) (l1 l2 : Lock) (g : Graph)
    (ht : t1.thread_id = t2.thread_id) (hl : l1.addr = l2.addr) :
    Thread.key t1 = Thread.key t2 ∧ Lock.key l1 = Lock.key l2 ∧
    (g.add_node (.thread t1)).add_node (.thread t2) = g.add_node (.thread t1) ∧
    ((g.add_node (.thread t1)).add_node (.thread t2)).nodes.length
      = (g.add_node (.thread t1)).nodes.length ∧
    (g.add_node (.thread t1)).find_node (.thread t2)
      = (g.add_node (.thread t1)).find_node (.thread t1) ∧
    (g.add_node (.lock l1)).add_node (.lock l2) = g.add_node (.lock l1) ∧
    ((g.add_edge (.thread t1) (.lock l1)).add_edge (.thread t2) (.lock l2)).nodes.length
      = (g.add_edge (.thread t1) (.lock l1)).nodes.length := by
  have hkt : Thread.key t1 = Thread.key t2 := by unfold Thread.key; rw [ht]
  have hkl : Lock.key l1 = Lock.key l2 := by unfold Lock.key; rw [hl]
  have hgt : GNode.key (.thread t2) = GNode.key (.thread t1) := by
    simp [GNode.key, hkt]
  have hgl : GNode.key (.lock l2) = GNode.key (.lock l1) := by
    simp [GNode.key, hkl]
  have hnt : (g.add_node (.thread t1)).add_node (.thread t2) = g.add_node (.thread t1) := by
    apply add_node_of_present
    rw [hgt]
    exact findEntry_add_node_self g (.thread t1)
  have hnl : (g.add_node (.lock l1)).add_node (.lock l2) = g.add_node (.lock l1) := by
    apply add_node_of_present
    rw [hgl]
    exact findEntry_add_node_self g (.lock l1)
  refine ⟨hkt, hkl, hnt, by rw [hnt], ?_, hnl, ?_⟩
  · unfold Graph.find_node
    rw [hgt]
  · set g1 := g.add_edge (.thread t1) (.lock l1) with hg1
    have e1 : g1.add_node (.thread t2) = g1 := by
      apply add_node_of_present
      rw [hgt]
      exact findEntry_add_edge_left_isSome g _ _
    have e2 : g1.add_node (.lock l2) = g1 := by
      apply add_node_of_present
      rw [hgl]
      exact findEntry_add_edge_right_isSome g _ _
    rw [add_edges_nodes_length, e1, e2]

/-- Witness for C9 at two concrete threads sharing id 1 and two concrete
locks sharing address 161. -/
theorem claim_node_identity_by_key_witness :
    wT1.thread_id = wT2.thread_id ∧ wL1.addr = wL2.addr ∧
    (Thread.key wT1 = Thread.key wT2 ∧ Lock.key wL1 = Lock.key wL2 ∧
     (gIso.add_node (.thread wT1)).add_node (.thread wT2) = gIso.add_node (.thread wT1) ∧
     ((gIso.add_node (.thread wT1)).add_node (.thread wT2)).nodes.length
       = (gIso.add_node (.thread wT1)).nodes.length ∧
     (gIso.add_node (.thread wT1)).find_node (.thread wT2)
       = (gIso.add_node (.thread wT1)).find_node (.thread wT1) ∧
     (gIso.add_node (.lock wL1)).add_node (.lock wL2) = gIso.add_node (.lock wL1) ∧
     ((gIso.add_edge (.thread wT1) (.lock wL1)).add_edge (.thread wT2) (.lock wL2)).nodes.length
       = (gIso.add_edge (.thread wT1) (.lock wL1)).nodes.length) :=
  ⟨by decide, by decide, claim_node_identity_by_key wT1 wT2 wL1 wL2 gIso (by decide) (by decide)⟩

/-- C7: Scenario A: with edges T1→L1, L1→T2, T2→L2, L2→T1 inserted via
`add_edge`, the graph has exactly 4 nodes and 4 edges and `detect_cycle`
returns the 4-element cycle T1, L1, T2, L2 (as descriptions, in wait
order). -/
theorem claim_scenarioA :
    gScenA.nodes.length = 4 ∧ gScenA.edge_count = 4 ∧
    gScenA.detect_cycle = some [aT1.toStr, aL1.toStr, aT2.toStr, aL2.toStr] :=
  ⟨by decide, by decide, by decide⟩

/-- C10: for the graph built by registering one node and adding a
self-loop, `detect_cycle` returns exactly the one-element sequence of that
node's description, and `remove_nodes_without_edge` keeps the node (the
self-loop counts as outgoing and incoming edge). -/
theorem claim_self_loop :
    gSelf.detect_cycle = some [selfN.toStr] ∧
    gSelf.remove_nodes_without_edge = gSelf :=
  ⟨by decide, by decide⟩

/-- C8: when the graph is empty after pruning, the builder reports the
explicit no-graph outcome (`none`) and renders no digraph at all. -/
theorem claim_empty_graph_no_digraph (g : Graph)
    (h : (g.remove_nodes_without_edge).is_empty = true) :
    mongodb_waitsfor_graph g = none := by
  unfold mongodb_waitsfor_graph
  simp [h]

/-- Witness for C8 at a concrete graph that prunes to empty. -/
theorem claim_empty_graph_no_digraph_witness :
    (gIso.remove_nodes_without_edge).is_empty = true ∧
    mongodb_waitsfor_graph gIso = none :=
  ⟨by decide, claim_empty_graph_no_digraph gIso (by decide)⟩

/-- C4 evidence: the mutex pass synthesizes a `"[unknown]"` placeholder for
an owner LWP (99) missing from the snapshot and continues, while the
lock-manager pass with a granted locker id (99) missing from the snapshot
aborts (Python passes `None` into `add_edge`, raising `AttributeError`)
instead of synthesizing a placeholder. -/
theorem claim_unknown_holder_divergence :
    find_lock_manager_holders Graph.empty dictW 4 10 [99] = none ∧
    find_mutex_holder Graph.empty dictW 3 99 10 = some gMutexUnknown ∧
    ("Thread 0x" ++ hexPad12 99) ∈ gMutexUnknown.nodes.map Prod.fst ∧
    gMutexUnknown.findEntry ("Thread 0x" ++ hexPad12 99)
      = some ⟨.thread ⟨99, 99, "\x22[unknown]\x22"⟩, []⟩ :=
  ⟨by decide, by decide, by decide, by decide⟩

/-! ### Pruning and the structural invariant -/

theorem find_from_node_isSome_iff (g : Graph) (e : NodeEntry) :
    (g.find_from_node e).isSome = true ↔ ∃ q ∈ g.nodes, e.node.key ∈ q.2.next_nodes := by
  unfold Graph.find_from_node
  rw [List.find?_isSome]
  simp

theorem nextOf_subset_keys (g : Graph) (hcl : ClosedNext g) (k : String) :
    ∀ x ∈ g.nextOf k, x ∈ g.nodes.map Prod.fst := by
  intro x hx
  unfold Graph.nextOf Graph.findEntry at hx
  rcases hf : g.nodes.find? (fun p => p.1 == k) with _ | p
  · rw [hf] at hx
    simp at hx
  · rw [hf] at hx
    simp only [Option.map_some', Option.getD_some] at hx
    exact hcl p (List.mem_of_find?_eq_some hf) x hx

theorem nextOf_nodup (g : Graph) (hnn : NodupNext g) (k : String) : (g.nextOf k).Nodup := by
  unfold Graph.nextOf Graph.findEntry
  rcases hf : g.nodes.find? (fun p => p.1 == k) with _ | p
  · rw [hf]
    simp
  · rw [hf]
    simp only [Option.map_some', Option.getD_some]
    exact hnn p (List.mem_of_find?_eq_some hf)

/-- C3: pruning correctness: membership in the pruned graph is membership
in the pre-pruning graph together with an outgoing or an incoming edge, as
judged in the pre-pruning graph (the pass builds a new mapping and never
consults the partially built one); every removed node had neither kind of
edge. -/
theorem claim_prune_correct (g : Graph) (hkm : KeyMatch g) :
    (∀ k e, (k, e) ∈ (g.remove_nodes_without_edge).nodes ↔
      ((k, e) ∈ g.nodes ∧
       (e.next_nodes ≠ [] ∨ ∃ q ∈ g.nodes, k ∈ q.2.next_nodes))) ∧
    (∀ k e, (k, e) ∈ g.nodes → (k, e) ∉ (g.remove_nodes_without_edge).nodes →
      e.next_nodes = [] ∧ ¬∃ q ∈ g.nodes, k ∈ q.2.next_nodes) := by
  have main : ∀ k e, (k, e) ∈ (g.remove_nodes_without_edge).nodes ↔
      ((k, e) ∈ g.nodes ∧
       (e.next_nodes ≠ [] ∨ ∃ q ∈ g.nodes, k ∈ q.2.next_nodes)) := by
    intro k e
    unfold Graph.remove_nodes_without_edge
    rw [List.mem_filter]
    constructor
    · rintro ⟨hmem, hpred⟩
      refine ⟨hmem, ?_⟩
      simp only [Bool.or_eq_true] at hpred
      rcases hpred with hne | hinc
      · left
        simpa using hne
      · right
        obtain ⟨q, hq, hkey⟩ := (find_from_node_isSome_iff g e).mp hinc
        have he : e.node.key = k := hkm (k, e) hmem
        rw [he] at hkey
        exact ⟨q, hq, hkey⟩
    · rintro ⟨hmem, hcond⟩
      refine ⟨hmem, ?_⟩
      rw [Bool.or_eq_true]
      rcases hcond with hne | ⟨q, hq, hkey⟩
      · left
        simpa using hne
      · right
        apply (find_from_node_isSome_iff g e).mpr
        have he : e.node.key = k := hkm (k, e) hmem
        rw [he]
        exact ⟨q, hq, hkey⟩
  refine ⟨main, ?_⟩
  intro k e hmem hnot
  constructor
  · by_contra hne
    exact hnot ((main k e).mpr ⟨hmem, Or.inl hne⟩)
  · intro hex
    exact hnot ((main k e).mpr ⟨hmem, Or.inr hex⟩)

/-- Witness for C3 at a concrete graph with one edge and one isolated
node. -/
theorem claim_prune_correct_witness :
    KeyMatch gPruneW ∧
    ((∀ k e, (k, e) ∈ (gPruneW.remove_nodes_without_edge).nodes ↔
       ((k, e) ∈ gPruneW.nodes ∧
        (e.next_nodes ≠ [] ∨ ∃ q ∈ gPruneW.nodes, k ∈ q.2.next_nodes))) ∧
     (∀ k e, (k, e) ∈ gPruneW.nodes → (k, e) ∉ (gPruneW.remove_nodes_without_edge).nodes →
       e.next_nodes = [] ∧ ¬∃ q ∈ gPruneW.nodes, k ∈ q.2.next_nodes)) :=
  ⟨by decide, claim_prune_correct gPruneW (by decide)⟩

theorem WFGraph_add_node (g : Graph) (n : GNode) (h : WFGraph g) :
    WFGraph (g.add_node n) := by
  obtain ⟨hnd, hkm, hcl, hnn⟩ := h
  unfold Graph.add_node Graph.find_node
  by_cases hp : (g.findEntry n.key).isSome
  · simp only [hp, if_true]
    exact ⟨hnd, hkm, hcl, hnn⟩
  · simp only [hp, Bool.false_eq_true, if_false]
    have hnk : n.key ∉ g.nodes.map Prod.fst := by
      rw [← findEntry_isSome_iff]
      simpa using hp
    refine ⟨?_, ?_, ?_, ?_⟩
    · unfold KeysNodup
      simp only [List.map_append, List.map_cons, List.map_nil]
      rw [List.nodup_append]
      refine ⟨hnd, List.nodup_singleton _, ?_⟩
      intro x hx hxs
      simp only [List.mem_singleton] at hxs
      subst hxs
      exact hnk hx
    · intro p hp2
      rcases List.mem_append.mp hp2 with h1 | h1
      · exact hkm p h1
      · simp only [List.mem_singleton] at h1
        subst h1
        rfl
    · intro p hp2 x hx
      simp only [List.map_append, List.mem_append]
      rcases List.mem_append.mp hp2 with h1 | h1
      · exact Or.inl (hcl p h1 x hx)
      · simp only [List.mem_singleton] at h1
        subst h1
        simp at hx
    · intro p hp2
      rcases List.mem_append.mp hp2 with h1 | h1
      · exact hnn p h1
      · simp only [List.mem_singleton] at h1
        subst h1
        exact List.nodup_nil

theorem WFGraph_add_edge (g : Graph) (a b : GNode) (h : WFGraph g) :
    WFGraph (g.add_edge a b) := by
  have h2 : WFGraph ((g.add_node a).add_node b) :=
    WFGraph_add_node _ b (WFGraph_add_node g a h)
  obtain ⟨hnd, hkm, hcl, hnn⟩ := h2
  by_cases hmem : b.key ∈ g.nextOf a.key
  · simp only [Graph.add_edge, nextOf_g2, hmem, if_true]
    exact ⟨hnd, hkm, hcl, hnn⟩
  · simp only [Graph.add_edge, nextOf_g2, hmem, if_false]
    set g2 := (g.add_node a).add_node b with hg2
    have hbk : b.key ∈ g2.nodes.map Prod.fst := by
      rw [← findEntry_isSome_iff]
      exact findEntry_g2_right g a b
    have hfnext_sub : ∀ x ∈ g.nextOf a.key, x ∈ g2.nodes.map Prod.fst := by
      intro x hx
      apply nextOf_subset_keys g2 hcl a.key
      rw [hg2, nextOf_g2]
      exact hx
    have hfnext_nodup : (g.nextOf a.key).Nodup := by
      have hnd2 := nextOf_nodup g2 hnn a.key
      rwa [hg2, nextOf_g2] at hnd2
    refine ⟨?_, ?_, ?_, ?_⟩
    · unfold KeysNodup
      rw [replaceNext_map_fst]
      exact hnd
    · intro p hp2
      rcases mem_replaceNext _ _ _ _ hp2 with h1 | ⟨e, he, rfl⟩
      · exact hkm p h1
      · exact hkm (a.key, e) he
    · intro p hp2 x hx
      simp only [replaceNext_map_fst]
      rcases mem_replaceNext _ _ _ _ hp2 with h1 | ⟨e, he, rfl⟩
      · exact hcl p h1 x hx
      · simp only at hx
        rcases List.mem_append.mp hx with h3 | h3
        · exact hfnext_sub x h3
        · simp only [List.mem_singleton] at h3
          subst h3
          exact hbk
    · intro p hp2
      rcases mem_replaceNext _ _ _ _ hp2 with h1 | ⟨e, he, rfl⟩
      · exact hnn p h1
      · simp only
        rw [List.nodup_append]
        refine ⟨hfnext_nodup, List.nodup_singleton _, ?_⟩
        intro x hx hxs
        simp only [List.mem_singleton] at hxs
        subst hxs
        exact hmem hx

theorem WFGraph_prune (g : Graph) (h : WFGraph g) :
    WFGraph g.remove_nodes_without_edge := by
  obtain ⟨hnd, hkm, hcl, hnn⟩ := h
  unfold Graph.remove_nodes_without_edge
  refine ⟨?_, ?_, ?_, ?_⟩
  · unfold KeysNodup
    exact List.Nodup.sublist ((List.filter_sublist _).map Prod.fst) hnd
  · intro p hp2
    exact hkm p (List.mem_filter.mp hp2).1
  · intro p hp2 x hx
    obtain ⟨hpg, _⟩ := List.mem_filter.mp hp2
    have hxk : x ∈ g.nodes.map Prod.fst := hcl p hpg x hx
    obtain ⟨q, hq, rfl⟩ := List.mem_map.mp hxk
    have hq2 : q ∈ g.nodes.filter
        (fun p => !p.2.next_nodes.isEmpty || (g.find_from_node p.2).isSome) := by
      apply List.mem_filter.mpr
      refine ⟨hq, ?_⟩
      rw [Bool.or_eq_true]
      right
      apply (find_from_node_isSome_iff g q.2).mpr
      have he : q.2.node.key = q.1 := hkm q hq
      rw [he]
      exact ⟨p, hpg, hx⟩
    exact List.mem_map.mpr ⟨q, hq2, rfl⟩
  · intro p hp2
    exact hnn p (List.mem_filter.mp hp2).1

/-- C6: the structural invariant (unique dict keys, entries stored under
their node's key, every key in an outgoing list registered, no duplicates
within an outgoing list) is preserved by `add_node`, `add_edge` and
`remove_nodes_without_edge`. -/
theorem claim_invariant_preserved (g : Graph) (n a b : GNode) (h : WFGraph g) :
    WFGraph (g.add_node n) ∧ WFGraph (g.add_edge a b) ∧
    WFGraph g.remove_nodes_without_edge :=
  ⟨WFGraph_add_node g n h, WFGraph_add_edge g a b h, WFGraph_prune g h⟩

/-- Witness for C6 at the Scenario A graph. -/
theorem claim_invariant_preserved_witness :
    WFGraph gScenA ∧
    (WFGraph (gScenA.add_node selfN) ∧ WFGraph (gScenA.add_edge aT1 aT2) ∧
     WFGraph gScenA.remove_nodes_without_edge) :=
  ⟨by decide, claim_invariant_preserved gScenA selfN aT1 aT2 (by decide)⟩

/-! ### List and chain helpers for the DFS development -/

theorem mem_insertKey {k x : String} {v : List String} :
    x ∈ insertKey k v ↔ x = k ∨ x ∈ v := by
  unfold insertKey
  by_cases h : k ∈ v
  · simp only [h, if_true]
    constructor
    · exact Or.inr
    · rintro (rfl | hx)
      · exact h
      · exact hx
  · simp [h, List.mem_append, or_comm]

theorem subset_insertKey (k : String) (v : List String) : v ⊆ insertKey k v := by
  intro x hx
  exact mem_insertKey.mpr (Or.inr hx)

theorem self_mem_insertKey (k : String) (v : List String) : k ∈ insertKey k v :=
  mem_insertKey.mpr (Or.inl rfl)

theorem length_filter_le_of_imp {α : Type} (l : List α) (p q : α → Bool)
    (h : ∀ x, q x = true → p x = true) :
    (l.filter q).length ≤ (l.filter p).length := by
  induction l with
  | nil => simp
  | cons a t ih =>
    by_cases hq : q a = true
    · simp only [List.filter_cons, hq, h a hq, if_true, List.length_cons]
      exact Nat.succ_le_succ ih
    · simp only [List.filter_cons, hq, if_false, Bool.false_eq_true]
      by_cases hp : p a = true
      · simp only [hp, if_true, List.length_cons]
        exact Nat.le_succ_of_le ih
      · simp only [hp, if_false, Bool.false_eq_true]
        exact ih

theorem length_filter_lt_of_witness {α : Type} (l : List α) (p q : α → Bool)
    (h : ∀ x, q x = true → p x = true) (x : α) (hx : x ∈ l)
    (hpx : p x = true) (hqx : q x = false) :
    (l.filter q).length < (l.filter p).length := by
  induction l with
  | nil => simp at hx
  | cons a t ih =>
    rcases List.mem_cons.mp hx with rfl | hxt
    · have hqa : ¬q x = true := by simp [hqx]
      simp only [List.filter_cons, hqa, if_false, hpx, if_true, Bool.false_eq_true,
        List.length_cons]
      exact Nat.lt_succ_of_le (length_filter_le_of_imp t p q h)
    · by_cases hq : q a = true
      · simp only [List.filter_cons, hq, h a hq, if_true, List.length_cons]
        exact Nat.succ_lt_succ (ih hxt)
      · simp only [List.filter_cons, hq, if_false, Bool.false_eq_true]
        by_cases hp : p a = true
        · simp only [hp, if_true, List.length_cons]
          exact Nat.lt_succ_of_lt (ih hxt)
        · simp only [hp, if_false, Bool.false_eq_true]
          exact ih hxt

theorem remaining_le_of_subset (g : Graph) {v w : List String} (h : v ⊆ w) :
    remaining g w ≤ remaining g v := by
  apply length_filter_le_of_imp
  intro x hx
  simp only [decide_eq_true_eq] at hx ⊢
  exact fun hv => hx (h hv)

theorem remaining_insert_lt (g : Graph) {n : String} {v : List String}
    (hn : n ∈ allKeysList g) (hv : n ∉ v) :
    remaining g (insertKey n v) < remaining g v := by
  refine length_filter_lt_of_witness (allKeysList g) (fun x => decide (x ∉ v))
    (fun x => decide (x ∉ insertKey n v)) ?_ n hn ?_ ?_
  · intro x hx
    simp only [decide_eq_true_eq] at hx ⊢
    intro hv2
    exact hx (subset_insertKey n v hv2)
  · simpa using hv
  · simp [self_mem_insertKey]

theorem nextOf_subset_allKeys (g : Graph) (k : String) :
    ∀ x ∈ g.nextOf k, x ∈ allKeysList g := by
  intro x hx
  unfold Graph.nextOf Graph.findEntry at hx
  rcases hf : g.nodes.find? (fun p => p.1 == k) with _ | p
  · rw [hf] at hx
    simp at hx
  · rw [hf] at hx
    simp only [Option.map_some', Option.getD_some] at hx
    unfold allKeysList
    rw [List.mem_dedup, List.mem_append]
    right
    exact List.mem_flatMap.mpr ⟨p, List.mem_of_find?_eq_some hf, hx⟩

theorem keys_subset_allKeys (g : Graph) :
    ∀ k ∈ g.nodes.map Prod.fst, k ∈ allKeysList g := by
  intro k hk
  unfold allKeysList
  rw [List.mem_dedup, List.mem_append]
  exact Or.inl hk

theorem edgeB_source_mem_keys (g : Graph) (a b : String) (h : EdgeB g a b) :
    a ∈ g.nodes.map Prod.fst := by
  unfold EdgeB Graph.nextOf Graph.findEntry at h
  rcases hf : g.nodes.find? (fun p => p.1 == a) with _ | p
  · rw [hf] at h
    simp at h
  · have h1 := List.find?_some hf
    have h2 := List.mem_of_find?_eq_some hf
    have h3 : p.1 = a := by simpa using h1
    subst h3
    exact List.mem_map.mpr ⟨p, h2, rfl⟩

theorem cycleSuffix_decomp {l : List String} {n : String} (h : n ∈ l) :
    ∃ q r, l = q ++ n :: r ∧ cycleSuffix l n = n :: r := by
  induction l with
  | nil => simp at h
  | cons a t ih =>
    by_cases ha : a = n
    · subst ha
      refine ⟨[], t, rfl, ?_⟩
      unfold cycleSuffix
      simp [List.dropWhile]
    · have ht : n ∈ t := by
        rcases List.mem_cons.mp h with h1 | h1
        · exact absurd h1.symm ha
        · exact h1
      obtain ⟨q, r, hl, hd⟩ := ih ht
      refine ⟨a :: q, r, by rw [hl]; rfl, ?_⟩
      unfold cycleSuffix at hd ⊢
      have hne : (a != n) = true := by simpa using ha
      simp only [List.dropWhile, hne]
      exact hd

theorem chain_pred {α : Type} {R : α → α → Prop} {c : α} {l : List α}
    (h : List.Chain R c l) : ∀ x ∈ l, ∃ z ∈ c :: l, R z x := by
  induction l generalizing c with
  | nil => intro x hx; simp at hx
  | cons d t ih =>
    obtain ⟨hcd, ht⟩ := List.chain_cons.mp h
    intro x hx
    rcases List.mem_cons.mp hx with rfl | hxt
    · exact ⟨c, List.mem_cons_self _ _, hcd⟩
    · obtain ⟨z, hz, hzx⟩ := ih ht x hxt
      exact ⟨z, List.mem_cons_of_mem _ hz, hzx⟩

theorem chain_fwd {α : Type} {R : α → α → Prop} {P : α → Prop} {c : α} {l : List α}
    (h : List.Chain R c l) (hc : P c)
    (hstep : ∀ u v, u ∈ c :: l → R u v → P u → P v) : ∀ x ∈ l, P x := by
  induction l generalizing c with
  | nil => intro x hx; simp at hx
  | cons d t ih =>
    obtain ⟨hcd, ht⟩ := List.chain_cons.mp h
    have hd : P d := hstep c d (List.mem_cons_self _ _) hcd hc
    intro x hx
    rcases List.mem_cons.mp hx with rfl | hxt
    · exact hd
    · refine ih ht hd ?_ x hxt
      intro u v hu hR hPu
      exact hstep u v (List.mem_cons_of_mem _ hu) hR hPu

theorem chain_extend {R : String → String → Prop} {c : String} {l : List String}
    (h : List.Chain' R (c :: l)) (hlast : ∀ y ∈ (c :: l).getLast?, R y c) :
    List.Chain R c (l ++ [c]) := by
  have happ : List.Chain' R ((c :: l) ++ [c]) := by
    rw [List.chain'_append]
    refine ⟨h, List.chain'_singleton c, ?_⟩
    intro x hx y hy
    simp only [List.head?_cons, Option.mem_def, Option.some.injEq] at hy
    subst hy
    exact hlast x hx
  have hshape : (c :: l) ++ [c] = c :: (l ++ [c]) := rfl
  rw [hshape] at happ
  exact happ

/-! ### The DFS grows the visited set monotonically -/

theorem dfs_mono (g : Graph) :
    ∀ f k v p, v ⊆ (dfsF g f k v p).2 := by
  intro f
  induction f with
  | zero =>
    intro k v p x hx
    simpa [dfsF] using hx
  | succ f ih =>
    have loop : ∀ ms v p, v ⊆ (dfsLoopF (fun n w q => dfsF g f n w q) ms v p).2 := by
      intro ms
      induction ms with
      | nil =>
        intro v p x hx
        simpa [dfsLoopF] using hx
      | cons n rest ihm =>
        intro v p x hx
        by_cases h1 : n ∈ p
        · simpa [dfsLoopF, h1] using hx
        · by_cases h2 : n ∈ v
          · simp only [dfsLoopF, h1, h2, if_true, if_false]
            exact ihm v p hx
          · simp only [dfsLoopF, h1, h2, if_false]
            rcases hr : dfsF g f n v p with ⟨oc, v'⟩
            have hv' : v ⊆ v' := by
              have := ih n v p
              rw [hr] at this
              exact this
            rcases oc with _ | c
            · simp only
              exact ihm v' p (hv' hx)
            · simp only
              exact hv' hx
    intro k v p x hx
    simp only [dfsF]
    exact loop _ _ _ (subset_insertKey k v hx)

/-! ### Soundness: any cycle the DFS returns is a genuine key cycle -/

theorem dfs_sound (g : Graph) :
    ∀ f k v p c v',
      (p ++ [k]).Nodup → List.Chain' (EdgeB g) (p ++ [k]) →
      dfsF g f k v p = (some c, v') → GoodCyc g c := by
  intro f
  induction f with
  | zero =>
    intro k v p c v' _ _ h
    simp [dfsF] at h
  | succ f ih =>
    have loop : ∀ ms v p c v',
        p.Nodup → List.Chain' (EdgeB g) p →
        (∀ y ∈ p.getLast?, ∀ n ∈ ms, EdgeB g y n) →
        dfsLoopF (fun n w q => dfsF g f n w q) ms v p = (some c, v') → GoodCyc g c := by
      intro ms
      induction ms with
      | nil =>
        intro v p c v' _ _ _ h
        simp [dfsLoopF] at h
      | cons n rest ihm =>
        intro v p c v' hnd hch hlast h
        by_cases h1 : n ∈ p
        · simp only [dfsLoopF, h1, if_true] at h
          have hcc : cycleSuffix p n = c := by
            have := congrArg Prod.fst h
            simpa using this
          obtain ⟨q, r, hpdec, hsuf⟩ := cycleSuffix_decomp h1
          have hcr : c = n :: r := by rw [← hcc, hsuf]
          have hsfx : (n :: r) <:+ p := ⟨q, hpdec.symm⟩
          have hnodup : (n :: r).Nodup := List.Nodup.sublist hsfx.sublist hnd
          have hch2 : List.Chain' (EdgeB g) (n :: r) := by
            rw [hpdec] at hch
            exact (List.chain'_append.mp hch).2.1
          obtain ⟨y0, hy0⟩ : ∃ y0, (n :: r).getLast? = some y0 := by
            rcases hl : (n :: r).getLast? with _ | y0
            · rw [List.getLast?_eq_none_iff] at hl
              simp at hl
            · exact ⟨y0, rfl⟩
          have hplast : p.getLast? = some y0 := by
            rw [hpdec, List.getLast?_append, hy0]
            rfl
          have hedge : EdgeB g y0 n := by
            refine hlast y0 ?_ n (List.mem_cons_self _ _)
            rw [hplast]
            rfl
          refine ⟨n, r, hcr, hnodup, ?_⟩
          refine chain_extend hch2 ?_
          intro y hy
          rw [hy0] at hy
          simp only [Option.mem_def, Option.some.injEq] at hy
          subst hy
          exact hedge
        · by_cases h2 : n ∈ v
          · simp only [dfsLoopF, h1, h2, if_true, if_false] at h
            exact ihm v p c v' hnd hch
              (fun y hy m hm => hlast y hy m (List.mem_cons_of_mem _ hm)) h
          · simp only [dfsLoopF, h1, h2, if_false] at h
            rcases hr : dfsF g f n v p with ⟨oc, w'⟩
            rw [hr] at h
            rcases oc with _ | c0
            · simp only at h
              exact ihm w' p c v' hnd hch
                (fun y hy m hm => hlast y hy m (List.mem_cons_of_mem _ hm)) h
            · simp only at h
              have hc0 : c0 = c := by
                have := congrArg Prod.fst h
                simpa using this
              have hw' : w' = v' := by
                have := congrArg Prod.snd h
                simpa using this
              subst hc0
              subst hw'
              have hedge : ∀ y ∈ p.getLast?, EdgeB g y n :=
                fun y hy => hlast y hy n (List.mem_cons_self _ _)
              refine ih n v p _ _ ?_ ?_ hr
              · rw [List.nodup_append]
                exact ⟨hnd, List.nodup_singleton _, by
                  intro x hx hxs
                  simp only [List.mem_singleton] at hxs
                  subst hxs
                  exact h1 hx⟩
              · rw [List.chain'_append]
                refine ⟨hch, List.chain'_singleton _, ?_⟩
                intro x hx y hy
                simp only [List.head?_cons, Option.mem_def, Option.some.injEq] at hy
                subst hy
                exact hedge x hx
    intro k v p c v' hnd hch h
    simp only [dfsF] at h
    refine loop _ _ _ _ _ hnd hch ?_ h
    intro y hy m hm
    have hk : (p ++ [k]).getLast? = some k := List.getLast?_concat p
    rw [hk] at hy
    simp only [Option.mem_def, Option.some.injEq] at hy
    subst hy
    exact hm

/-- Soundness at the `detect_cycle` top loop. -/
theorem detect_loop_sound (g : Graph) (fuel : Nat) :
    ∀ ks v c, detectLoopF g fuel ks v = some c → GoodCyc g c := by
  intro ks
  induction ks with
  | nil =>
    intro v c h
    simp [detectLoopF] at h
  | cons k rest ih =>
    intro v c h
    by_cases h1 : k ∈ v
    · simp only [detectLoopF, h1, if_true] at h
      exact ih v c h
    · simp only [detectLoopF, h1, if_false] at h
      rcases hr : dfsF g fuel k v [] with ⟨oc, v'⟩
      rw [hr] at h
      rcases oc with _ | c0
      · simp only at h
        exact ih v' c h
      · simp only [Option.some.injEq] at h
        subst h
        exact dfs_sound g fuel k v [] c0 v' (by simp) (by simp) hr

/-- C2: for every acyclic graph (over the dict-backed, closed graphs the
program builds), `detect_cycle` returns `None`: a cycle is never reported
when none exists. -/
theorem claim_acyclic_none (g : Graph) (h1 : KeysNodup g) (h2 : ClosedNext g)
    (hac : ¬HasCycle g) : g.detect_cycle = none := by
  unfold Graph.detect_cycle
  rcases hd : detectLoopF g (fuelOf g) (g.nodes.map Prod.fst) [] with _ | c
  · rfl
  · exfalso
    obtain ⟨k, rest, _, _, hch⟩ := detect_loop_sound g _ _ _ _ hd
    exact hac ⟨k, rest, hch⟩

/-- The concrete two-node, one-edge graph has no cycle. -/
theorem gAcyc_no_cycle : ¬HasCycle gAcyc := by
  rintro ⟨k, rest, hch⟩
  have hchar : ∀ a b, EdgeB gAcyc a b → a = aT1.key ∧ b = aL1.key := by
    intro a b h
    have ha := edgeB_source_mem_keys gAcyc a b h
    have hkeys : gAcyc.nodes.map Prod.fst = [aT1.key, aL1.key] := by decide
    rw [hkeys] at ha
    rcases List.mem_cons.mp ha with rfl | ha2
    · refine ⟨rfl, ?_⟩
      have hnx : gAcyc.nextOf aT1.key = [aL1.key] := by decide
      unfold EdgeB at h
      rw [hnx] at h
      simpa using h
    · exfalso
      have ha3 : a = aL1.key := by simpa using ha2
      subst ha3
      have hnx : gAcyc.nextOf aL1.key = [] := by decide
      unfold EdgeB at h
      rw [hnx] at h
      simp at h
  have hkmem : k ∈ rest ++ [k] := List.mem_append.mpr (Or.inr (List.mem_singleton_self k))
  obtain ⟨z, _, hzk⟩ := chain_pred hch k hkmem
  have hk : k = aL1.key := (hchar z k hzk).2
  obtain ⟨h0, t, hform⟩ : ∃ h0 t, rest ++ [k] = h0 :: t := by
    rcases hre : rest ++ [k] with _ | ⟨h0, t⟩
    · exact absurd hre (by simp)
    · exact ⟨h0, t, rfl⟩
  rw [hform] at hch
  have hfirst := (List.chain_cons.mp hch).1
  have hk2 : k = aT1.key := (hchar k h0 hfirst).1
  rw [hk] at hk2
  exact absurd hk2 (by decide)

/-- Witness for C2 at a concrete acyclic graph. -/
theorem claim_acyclic_none_witness :
    KeysNodup gAcyc ∧ ClosedNext gAcyc ∧ ¬HasCycle gAcyc ∧
    gAcyc.detect_cycle = none :=
  ⟨by decide, by decide, gAcyc_no_cycle,
   claim_acyclic_none gAcyc (by decide) (by decide) gAcyc_no_cycle⟩

/-! ### Completeness infrastructure: the DFS finds some cycle whenever one
exists.  The lemmas below follow the structure of the recursion: an outer
induction on the fuel with an inner induction on the pending neighbor
list; `remaining g v ≤ f` states that the fuel majorizes the unvisited
keys, so the artificial fuel-exhaustion branch is unreachable. -/

theorem remaining_pos (g : Graph) {k : String} {v : List String}
    (hk : k ∈ allKeysList g) (hv : k ∉ v) : 0 < remaining g v := by
  apply List.length_pos_of_mem (a := k)
  apply List.mem_filter.mpr
  exact ⟨hk, by simpa using hv⟩

theorem remaining_nil (g : Graph) : remaining g [] = fuelOf g := by
  unfold remaining fuelOf
  have h : ∀ x : String, (decide (x ∉ ([] : List String))) = true := by
    intro x
    simp
  rw [List.filter_eq_self.mpr (fun a _ => h a)]

theorem GI_insert (g : Graph) {v p : List String} (k : String) (h : GI g v p) :
    GI g (insertKey k v) (p ++ [k]) := by
  intro a ha hap b hb
  rcases mem_insertKey.mp ha with rfl | hav
  · exact absurd (List.mem_append.mpr (Or.inr (List.mem_singleton_self a))) hap
  · have hap2 : a ∉ p := fun hc => hap (List.mem_append.mpr (Or.inl hc))
    exact subset_insertKey k v (h a hav hap2 b hb)

theorem dfs_loop_mono (g : Graph) (f : Nat) :
    ∀ ms v p, v ⊆ (dfsLoopF (fun n w q => dfsF g f n w q) ms v p).2 := by
  intro ms
  induction ms with
  | nil =>
    intro v p x hx
    simpa [dfsLoopF] using hx
  | cons n rest ihm =>
    intro v p x hx
    by_cases h1 : n ∈ p
    · simpa [dfsLoopF, h1] using hx
    · by_cases h2 : n ∈ v
      · simp only [dfsLoopF, h1, h2, if_true, if_false]
        exact ihm v p hx
      · simp only [dfsLoopF, h1, h2, if_false]
        rcases hr : dfsF g f n v p with ⟨oc, v'⟩
        have hv' : v ⊆ v' := by
          have hm := dfs_mono g f n v p
          rw [hr] at hm
          exact hm
        rcases oc with _ | c
        · simp only
          exact ihm v' p (hv' hx)
        · simp only
          exact hv' hx

theorem dfs_mem (g : Graph) :
    ∀ f k v p, k ∈ allKeysList g → k ∉ v → remaining g v ≤ f →
      k ∈ (dfsF g f k v p).2 := by
  intro f k v p hk hv hf
  rcases f with _ | f
  · exact absurd hf (by
      have hp := remaining_pos g hk hv
      omega)
  · simp only [dfsF]
    exact dfs_loop_mono g f _ _ _ (self_mem_insertKey k v)

theorem dfs_closure (g : Graph) :
    ∀ f k v p v',
      k ∈ allKeysList g → k ∉ v → remaining g v ≤ f → GI g v p →
      dfsF g f k v p = (none, v') →
      v ⊆ v' ∧ k ∈ v' ∧ GI g v' p := by
  intro f
  induction f with
  | zero =>
    intro k v p v' hk hv hf _ _
    exact absurd hf (by
      have hp := remaining_pos g hk hv
      omega)
  | succ f ih =>
    have loop : ∀ ms w p1 v',
        (∀ n ∈ ms, n ∈ allKeysList g) → remaining g w ≤ f → GI g w p1 →
        dfsLoopF (fun n w2 q => dfsF g f n w2 q) ms w p1 = (none, v') →
        w ⊆ v' ∧ (∀ n ∈ ms, n ∈ v') ∧ GI g v' p1 := by
      intro ms
      induction ms with
      | nil =>
        intro w p1 v' _ _ hgi h
        have hw : w = v' := by
          have h2 := congrArg Prod.snd h
          simpa [dfsLoopF] using h2
        subst hw
        exact ⟨fun x hx => hx, by simp, hgi⟩
      | cons n rest ihm =>
        intro w p1 v' hms hf hgi h
        by_cases h1 : n ∈ p1
        · simp [dfsLoopF, h1] at h
        · by_cases h2 : n ∈ w
          · simp only [dfsLoopF, h1, h2, if_true, if_false] at h
            obtain ⟨hsub, hrest, hgi'⟩ :=
              ihm w p1 v' (fun m hm => hms m (List.mem_cons_of_mem _ hm)) hf hgi h
            refine ⟨hsub, ?_, hgi'⟩
            intro m hm
            rcases List.mem_cons.mp hm with rfl | hm2
            · exact hsub h2
            · exact hrest m hm2
          · simp only [dfsLoopF, h1, h2, if_false] at h
            rcases hr : dfsF g f n w p1 with ⟨oc, w'⟩
            rw [hr] at h
            rcases oc with _ | c0
            · simp only at h
              have hnU : n ∈ allKeysList g := hms n (List.mem_cons_self _ _)
              obtain ⟨hww', hnw', hgi'⟩ := ih n w p1 w' hnU h2 hf hgi hr
              have hrem : remaining g w' ≤ f := by
                have hins : insertKey n w ⊆ w' := by
                  intro x hx
                  rcases mem_insertKey.mp hx with rfl | hx2
                  · exact hnw'
                  · exact hww' hx2
                have h3 := remaining_le_of_subset g hins
                have h4 := remaining_insert_lt g hnU h2
                omega
              obtain ⟨hsub2, hrest2, hgi2⟩ :=
                ihm w' p1 v' (fun m hm => hms m (List.mem_cons_of_mem _ hm)) hrem hgi' h
              refine ⟨fun x hx => hsub2 (hww' hx), ?_, hgi2⟩
              intro m hm
              rcases List.mem_cons.mp hm with rfl | hm2
              · exact hsub2 hnw'
              · exact hrest2 m hm2
            · simp at h
    intro k v p v' hk hv hf hgi h
    simp only [dfsF] at h
    have hrem : remaining g (insertKey k v) ≤ f := by
      have h4 := remaining_insert_lt g hk hv
      omega
    obtain ⟨hsub, hnext, hgi'⟩ := loop (g.nextOf k) (insertKey k v) (p ++ [k]) v'
      (fun n hn => nextOf_subset_allKeys g k n hn) hrem (GI_insert g k hgi) h
    have hvv' : v ⊆ v' := fun x hx => hsub (subset_insertKey k v hx)
    have hkv' : k ∈ v' := hsub (self_mem_insertKey k v)
    refine ⟨hvv', hkv', ?_⟩
    intro a ha hap b hb
    by_cases hak : a = k
    · subst hak
      exact hnext b hb
    · have hap2 : a ∉ p ++ [k] := by
        intro hc
        rcases List.mem_append.mp hc with hc1 | hc1
        · exact hap hc1
        · exact hak (by simpa using hc1)
      exact hgi' a ha hap2 b hb

theorem dfs_no_backedge (g : Graph) :
    ∀ f k v p v',
      k ∈ allKeysList g → k ∉ v → remaining g v ≤ f →
      dfsF g f k v p = (none, v') →
      ∀ z ∈ v', z ∉ v → ∀ y ∈ p ++ [k], ¬EdgeB g z y := by
  intro f
  induction f with
  | zero =>
    intro k v p v' hk hv hf _
    exact absurd hf (by
      have hp := remaining_pos g hk hv
      omega)
  | succ f ih =>
    have loop : ∀ ms w p1 v',
        (∀ n ∈ ms, n ∈ allKeysList g) → remaining g w ≤ f →
        dfsLoopF (fun n w2 q => dfsF g f n w2 q) ms w p1 = (none, v') →
        (∀ z ∈ v', z ∉ w → ∀ y ∈ p1, ¬EdgeB g z y) ∧ (∀ n ∈ ms, n ∉ p1) := by
      intro ms
      induction ms with
      | nil =>
        intro w p1 v' _ _ h
        have hw : w = v' := by
          have h2 := congrArg Prod.snd h
          simpa [dfsLoopF] using h2
        subst hw
        refine ⟨?_, by simp⟩
        intro z hz hzw
        exact absurd hz hzw
      | cons n rest ihm =>
        intro w p1 v' hms hf h
        by_cases h1 : n ∈ p1
        · simp [dfsLoopF, h1] at h
        · by_cases h2 : n ∈ w
          · simp only [dfsLoopF, h1, h2, if_true, if_false] at h
            obtain ⟨hz, hnp⟩ :=
              ihm w p1 v' (fun m hm => hms m (List.mem_cons_of_mem _ hm)) hf h
            refine ⟨hz, ?_⟩
            intro m hm
            rcases List.mem_cons.mp hm with rfl | hm2
            · exact h1
            · exact hnp m hm2
          · simp only [dfsLoopF, h1, h2, if_false] at h
            rcases hr : dfsF g f n w p1 with ⟨oc, w'⟩
            rw [hr] at h
            rcases oc with _ | c0
            · simp only at h
              have hnU : n ∈ allKeysList g := hms n (List.mem_cons_self _ _)
              have hzin := ih n w p1 w' hnU h2 hf hr
              have hww' : w ⊆ w' := by
                have hm := dfs_mono g f n w p1
                rw [hr] at hm
                exact hm
              have hnw' : n ∈ w' := by
                have hm := dfs_mem g f n w p1 hnU h2 hf
                rw [hr] at hm
                exact hm
              have hrem : remaining g w' ≤ f := by
                have hins : insertKey n w ⊆ w' := by
                  intro x hx
                  rcases mem_insertKey.mp hx with rfl | hx2
                  · exact hnw'
                  · exact hww' hx2
                have h3 := remaining_le_of_subset g hins
                have h4 := remaining_insert_lt g hnU h2
                omega
              obtain ⟨hz2, hnp2⟩ :=
                ihm w' p1 v' (fun m hm => hms m (List.mem_cons_of_mem _ hm)) hrem h
              refine ⟨?_, ?_⟩
              · intro z hzv' hzw y hy hE
                by_cases hzw' : z ∈ w'
                · exact hzin z hzw' hzw y (List.mem_append.mpr (Or.inl hy)) hE
                · exact hz2 z hzv' hzw' y hy hE
              · intro m hm
                rcases List.mem_cons.mp hm with rfl | hm2
                · exact h1
                · exact hnp2 m hm2
            · simp at h
    intro k v p v' hk hv hf h
    simp only [dfsF] at h
    have hrem : remaining g (insertKey k v) ≤ f := by
      have h4 := remaining_insert_lt g hk hv
      omega
    obtain ⟨hz, hnp⟩ := loop (g.nextOf k) (insertKey k v) (p ++ [k]) v'
      (fun n hn => nextOf_subset_allKeys g k n hn) hrem h
    intro z hzv' hzv y hy hE
    by_cases hzw : z ∈ insertKey k v
    · rcases mem_insertKey.mp hzw with rfl | hzin
      · exact hnp y hE hy
      · exact hzv hzin
    · exact hz z hzv' hzw y hy hE

theorem dfs_untouched (g : Graph) :
    ∀ f k v p v',
      k ∈ allKeysList g → k ∉ v → remaining g v ≤ f → GI g v p → p ⊆ v →
      dfsF g f k v p = (none, v') →
      ∀ c cr, List.Chain (EdgeB g) c (cr ++ [c]) → (∀ x ∈ c :: cr, x ∉ v) →
      ∀ x ∈ c :: cr, x ∉ v' := by
  intro f
  induction f with
  | zero =>
    intro k v p v' hk hv hf _ _ _
    exact absurd hf (by
      have hp := remaining_pos g hk hv
      omega)
  | succ f ih =>
    have loop : ∀ ms w p1 v',
        (∀ n ∈ ms, n ∈ allKeysList g) → remaining g w ≤ f → GI g w p1 → p1 ⊆ w →
        dfsLoopF (fun n w2 q => dfsF g f n w2 q) ms w p1 = (none, v') →
        ∀ c cr, List.Chain (EdgeB g) c (cr ++ [c]) → (∀ x ∈ c :: cr, x ∉ w) →
        ∀ x ∈ c :: cr, x ∉ v' := by
      intro ms
      induction ms with
      | nil =>
        intro w p1 v' _ _ _ _ h
        have hw : w = v' := by
          have h2 := congrArg Prod.snd h
          simpa [dfsLoopF] using h2
        subst hw
        intro c cr _ hdisj x hx
        exact hdisj x hx
      | cons n rest ihm =>
        intro w p1 v' hms hf hgi hp1 h
        by_cases h1 : n ∈ p1
        · simp [dfsLoopF, h1] at h
        · by_cases h2 : n ∈ w
          · simp only [dfsLoopF, h1, h2, if_true, if_false] at h
            exact ihm w p1 v' (fun m hm => hms m (List.mem_cons_of_mem _ hm)) hf hgi hp1 h
          · simp only [dfsLoopF, h1, h2, if_false] at h
            rcases hr : dfsF g f n w p1 with ⟨oc, w'⟩
            rw [hr] at h
            rcases oc with _ | c0
            · simp only at h
              have hnU : n ∈ allKeysList g := hms n (List.mem_cons_self _ _)
              obtain ⟨hww', hnw', hgi'⟩ := dfs_closure g f n w p1 w' hnU h2 hf hgi hr
              have hrem : remaining g w' ≤ f := by
                have hins : insertKey n w ⊆ w' := by
                  intro x hx
                  rcases mem_insertKey.mp hx with rfl | hx2
                  · exact hnw'
                  · exact hww' hx2
                have h3 := remaining_le_of_subset g hins
                have h4 := remaining_insert_lt g hnU h2
                omega
              intro c cr hch hdisj
              have hdisj' : ∀ x ∈ c :: cr, x ∉ w' :=
                ih n w p1 w' hnU h2 hf hgi hp1 hr c cr hch hdisj
              exact ihm w' p1 v' (fun m hm => hms m (List.mem_cons_of_mem _ hm)) hrem hgi'
                (fun x hx => hww' (hp1 hx)) h c cr hch hdisj'
            · simp at h
    intro k v p v' hk hv hf hgi hp h c cr hch hdisj
    by_cases hkc : k ∈ c :: cr
    · exfalso
      obtain ⟨hvv', hkv', hgi'⟩ :=
        dfs_closure g (f + 1) k v p v' hk hv hf hgi h
      have hstep : ∀ u y, u ∈ c :: cr → EdgeB g u y → u ∈ v' → y ∈ v' := by
        intro u y hu hE huv'
        have hup : u ∉ p := fun hc => (hdisj u hu) (hp hc)
        exact hgi' u huv' hup y hE
      have hall : ∀ x ∈ c :: cr, x ∈ v' := by
        rcases List.mem_cons.mp hkc with rfl | hkcr
        · intro x hx
          rcases List.mem_cons.mp hx with rfl | hxcr
          · exact hkv'
          · refine chain_fwd hch hkv' ?_ x (List.mem_append.mpr (Or.inl hxcr))
            intro u y hu hE hPu
            have hu2 : u ∈ k :: cr := by
              rcases List.mem_cons.mp hu with rfl | hu3
              · exact List.mem_cons_self _ _
              · rcases List.mem_append.mp hu3 with hu4 | hu4
                · exact List.mem_cons_of_mem _ hu4
                · have : u = k := by simpa using hu4
                  subst this
                  exact List.mem_cons_self _ _
            exact hstep u y hu2 hE hPu
        · obtain ⟨cr1, cr2, rfl⟩ := List.append_of_mem hkcr
          have hshape : (cr1 ++ k :: cr2) ++ [c] = cr1 ++ k :: (cr2 ++ [c]) := by
            rw [List.append_assoc]
            rfl
          rw [hshape] at hch
          obtain ⟨hchl, hchr⟩ := List.chain_split.mp hch
          have hmemconv : ∀ u, u ∈ c :: (cr1 ++ k :: cr2) → True := fun _ _ => trivial
          have hstepr : ∀ u y, u ∈ k :: (cr2 ++ [c]) → EdgeB g u y → u ∈ v' → y ∈ v' := by
            intro u y hu hE hPu
            have hu2 : u ∈ c :: (cr1 ++ k :: cr2) := by
              rcases List.mem_cons.mp hu with rfl | hu3
              · exact List.mem_cons_of_mem _
                  (List.mem_append.mpr (Or.inr (List.mem_cons_self _ _)))
              · rcases List.mem_append.mp hu3 with hu4 | hu4
                · exact List.mem_cons_of_mem _
                    (List.mem_append.mpr (Or.inr (List.mem_cons_of_mem _ hu4)))
                · have : u = c := by simpa using hu4
                  subst this
                  exact List.mem_cons_self _ _
            exact hstep u y hu2 hE hPu
          have hr2 : ∀ x ∈ cr2 ++ [c], x ∈ v' := fun x hx => chain_fwd hchr hkv' hstepr x hx
          have hcv' : c ∈ v' :=
            hr2 c (List.mem_append.mpr (Or.inr (List.mem_singleton_self c)))
          have hstepl : ∀ u y, u ∈ c :: (cr1 ++ [k]) → EdgeB g u y → u ∈ v' → y ∈ v' := by
            intro u y hu hE hPu
            have hu2 : u ∈ c :: (cr1 ++ k :: cr2) := by
              rcases List.mem_cons.mp hu with rfl | hu3
              · exact List.mem_cons_self _ _
              · rcases List.mem_append.mp hu3 with hu4 | hu4
                · exact List.mem_cons_of_mem _ (List.mem_append.mpr (Or.inl hu4))
                · have : u = k := by simpa using hu4
                  subst this
                  exact List.mem_cons_of_mem _
                    (List.mem_append.mpr (Or.inr (List.mem_cons_self _ _)))
            exact hstep u y hu2 hE hPu
          have hr1 : ∀ x ∈ cr1 ++ [k], x ∈ v' := fun x hx => chain_fwd hchl hcv' hstepl x hx
          intro x hx
          rcases List.mem_cons.mp hx with rfl | hx2
          · exact hcv'
          · rcases List.mem_append.mp hx2 with hx3 | hx3
            · exact hr1 x (List.mem_append.mpr (Or.inl hx3))
            · rcases List.mem_cons.mp hx3 with rfl | hx4
              · exact hkv'
              · exact hr2 x (List.mem_append.mpr (Or.inl hx4))
      have hkmem2 : k ∈ cr ++ [c] := by
        rcases List.mem_cons.mp hkc with rfl | hkcr
        · exact List.mem_append.mpr (Or.inr (List.mem_singleton_self k))
        · exact List.mem_append.mpr (Or.inl hkcr)
      obtain ⟨z, hz, hzk⟩ := chain_pred hch k hkmem2
      have hzverts : z ∈ c :: cr := by
        rcases List.mem_cons.mp hz with rfl | hz2
        · exact List.mem_cons_self _ _
        · rcases List.mem_append.mp hz2 with hz3 | hz3
          · exact List.mem_cons_of_mem _ hz3
          · have : z = c := by simpa using hz3
            subst this
            exact List.mem_cons_self _ _
      have hzv' : z ∈ v' := hall z hzverts
      have hzv : z ∉ v := hdisj z hzverts
      exact dfs_no_backedge g (f + 1) k v p v' hk hv hf h z hzv' hzv k
        (List.mem_append.mpr (Or.inr (List.mem_singleton_self k))) hzk
    · simp only [dfsF] at h
      have hrem : remaining g (insertKey k v) ≤ f := by
        have h4 := remaining_insert_lt g hk hv
        omega
      have hdisj0 : ∀ x ∈ c :: cr, x ∉ insertKey k v := by
        intro x hx hc2
        rcases mem_insertKey.mp hc2 with rfl | hc3
        · exact hkc hx
        · exact hdisj x hx hc3
      refine loop (g.nextOf k) (insertKey k v) (p ++ [k]) v'
        (fun n hn => nextOf_subset_allKeys g k n hn) hrem (GI_insert g k hgi) ?_ h c cr hch hdisj0
      intro x hx
      rcases List.mem_append.mp hx with hx1 | hx1
      · exact subset_insertKey k v (hp hx1)
      · have : x = k := by simpa using hx1
        subst this
        exact self_mem_insertKey x v

theorem detect_loop_complete (g : Graph) :
    ∀ ks v, (∀ k ∈ ks, k ∈ allKeysList g) → remaining g v ≤ fuelOf g → GI g v [] →
      detectLoopF g (fuelOf g) ks v = none →
      ∀ c cr, List.Chain (EdgeB g) c (cr ++ [c]) → (∀ x ∈ c :: cr, x ∉ v) →
      ∀ x ∈ c :: cr, x ∉ ks := by
  intro ks
  induction ks with
  | nil =>
    intro v _ _ _ _ c cr _ _ x _ hx
    simp at hx
  | cons k rest ih =>
    intro v hks hrem hgi h c cr hch hdisj x hx hxks
    rcases List.mem_cons.mp hxks with rfl | hxrest
    · by_cases h1 : x ∈ v
      · exact hdisj x hx h1
      · simp only [detectLoopF, h1, if_false] at h
        rcases hr : dfsF g (fuelOf g) x v [] with ⟨oc, v'⟩
        rw [hr] at h
        rcases oc with _ | c0
        · have hxU := hks x (List.mem_cons_self _ _)
          have hdisj' := dfs_untouched g (fuelOf g) x v [] v' hxU h1 hrem hgi
            (List.nil_subset v) hr c cr hch hdisj
          have hxv' : x ∈ v' := by
            have hm := dfs_mem g (fuelOf g) x v [] hxU h1 hrem
            rw [hr] at hm
            exact hm
          exact absurd hxv' (hdisj' x hx)
        · simp at h
    · by_cases h1 : k ∈ v
      · simp only [detectLoopF, h1, if_true] at h
        exact ih v (fun m hm => hks m (List.mem_cons_of_mem _ hm)) hrem hgi h
          c cr hch hdisj x hx hxrest
      · simp only [detectLoopF, h1, if_false] at h
        rcases hr : dfsF g (fuelOf g) k v [] with ⟨oc, v'⟩
        rw [hr] at h
        rcases oc with _ | c0
        · simp only at h
          have hkU := hks k (List.mem_cons_self _ _)
          obtain ⟨hvv', hkv', hgi'⟩ := dfs_closure g (fuelOf g) k v [] v' hkU h1 hrem hgi hr
          have hdisj' := dfs_untouched g (fuelOf g) k v [] v' hkU h1 hrem hgi
            (List.nil_subset v) hr c cr hch hdisj
          have hrem' : remaining g v' ≤ fuelOf g :=
            le_trans (remaining_le_of_subset g hvv') hrem
          exact ih v' (fun m hm => hks m (List.mem_cons_of_mem _ hm)) hrem' hgi' h
            c cr hch hdisj' x hx hxrest
        · simp at h

theorem detect_some_of_cycle (g : Graph) (hc : HasCycle g) :
    (detectLoopF g (fuelOf g) (g.nodes.map Prod.fst) []).isSome = true := by
  obtain ⟨c, cr, hch⟩ := hc
  rcases hd : detectLoopF g (fuelOf g) (g.nodes.map Prod.fst) [] with _ | res
  · exfalso
    have hcompl := detect_loop_complete g (g.nodes.map Prod.fst) []
      (keys_subset_allKeys g) (by rw [remaining_nil]) (by intro a ha; simp at ha) hd
      c cr hch (by simp)
    obtain ⟨h0, t, hform⟩ : ∃ h0 t, cr ++ [c] = h0 :: t := by
      rcases hre : cr ++ [c] with _ | ⟨h0, t⟩
      · exact absurd hre (by simp)
      · exact ⟨h0, t, rfl⟩
    rw [hform] at hch
    have hfirst := (List.chain_cons.mp hch).1
    have hckeys := edgeB_source_mem_keys g c h0 hfirst
    exact hcompl c (List.mem_cons_self _ _) hckeys
  · rfl

/-- C1 (amended): for every dict-backed closed graph that contains a cycle,
`detect_cycle` returns the descriptions of a key sequence in which
consecutive keys (including the wrap-around from last to first) are
connected by existing edges and no key repeats; element uniqueness holds at
the key level (distinct nodes can share one rendered description, see the
counterexample). -/
theorem claim_cycle_detection (g : Graph) (h1 : KeysNodup g) (h2 : ClosedNext g)
    (hc : HasCycle g) :
    ∃ k rest, g.detect_cycle = some ((k :: rest).map g.descOf) ∧
      (k :: rest).Nodup ∧ List.Chain (EdgeB g) k (rest ++ [k]) := by
  have hs := detect_some_of_cycle g hc
  obtain ⟨c, hcres⟩ := Option.isSome_iff_exists.mp hs
  obtain ⟨k, rest, rfl, hnodup, hch⟩ := detect_loop_sound g (fuelOf g) _ _ _ hcres
  refine ⟨k, rest, ?_, hnodup, hch⟩
  unfold Graph.detect_cycle
  rw [hcres]
  rfl

/-- The Scenario A graph contains a cycle. -/
theorem hasCycle_gScenA : HasCycle gScenA :=
  ⟨aT1.key, [aL1.key, aT2.key, aL2.key],
   List.Chain.cons (by decide) (List.Chain.cons (by decide)
     (List.Chain.cons (by decide) (List.Chain.cons (by decide) List.Chain.nil)))⟩

/-- Witness for C1 (amended) at the Scenario A graph. -/
theorem claim_cycle_detection_witness :
    KeysNodup gScenA ∧ ClosedNext gScenA ∧ HasCycle gScenA ∧
    (∃ k rest, gScenA.detect_cycle = some ((k :: rest).map gScenA.descOf) ∧
      (k :: rest).Nodup ∧ List.Chain (EdgeB gScenA) k (rest ++ [k])) :=
  ⟨by decide, by decide, hasCycle_gScenA,
   claim_cycle_detection gScenA (by decide) (by decide) hasCycle_gScenA⟩

/-- Counterexample to C1 as stated: `gBadDesc` contains a cycle between a
thread and a lock whose two distinct nodes render to the same description
string, so the sequence returned by `detect_cycle` repeats an element. -/
theorem claim_cycle_detection_counterexample :
    HasCycle gBadDesc ∧
    gBadDesc.detect_cycle =
      some ["Lock 0x000000000000 (Thread 0x000000000000 (LWP 0))",
            "Lock 0x000000000000 (Thread 0x000000000000 (LWP 0))"] ∧
    ¬ (["Lock 0x000000000000 (Thread 0x000000000000 (LWP 0))",
        "Lock 0x000000000000 (Thread 0x000000000000 (LWP 0))"] : List String).Nodup :=
  ⟨⟨badT.key, [badL.key],
    List.Chain.cons (by decide) (List.Chain.cons (by decide) List.Chain.nil)⟩,
   by decide, by decide⟩

end MongoLock
